import Mathlib

/-!
Shallow embedding of `EntitySparseSet<V>` from
`crates/bevy_ecs/src/entity/entity_sparse_set.rs`, together with proofs of its
specified properties.

Modelling conventions:
* `Vec<V>` becomes `List V`; `Vec<Option<NonMaxU32>>` becomes `List (Option Nat)`,
  where a stored `Nat` is the numeric value of the stored `NonMaxU32`.
* The cast `self.dense.len() as u32` is modelled as `% U32SIZE`.
* `NonMaxU32::new_unchecked v` has the safety precondition `v ≠ u32::MAX`; likewise
  `get_unchecked` requires the index to be in bounds.  The state-changing effect of these
  calls is modelled by total functions on lists (`List.set` / `List.getElem?`), and the
  side conditions under which the Rust execution is defined (no undefined behavior) are
  captured separately by the predicate `EntitySparseSet.insertDefined`.
* `assert!` failure (a panic) in `insert_from_slice_unique` is modelled by `Except.error`
  carrying the container state at the moment of the panic; since the assert is the first
  statement of the function, that state is the unmodified input state.
-/

/-- The value `u32::MAX = 4294967295`: the one `u32` value a `NonMaxU32` cannot hold,
used by `Option<NonMaxU32>` as the niche that encodes "absent". -/
def U32MAX : Nat := 4294967295

/-- The size `2^32` of the `u32` value space; `x as u32` on a `usize` is `x % U32SIZE`. -/
def U32SIZE : Nat := 4294967296

/-- Model of `Entity` as the container sees it: the only operation used is
`entity.index()`, the raw (`u32`) index, so an entity is modelled by that index. -/
structure Entity where
  index : Nat
deriving DecidableEq, Repr

/-- Model of `EntitySparseSet<V>`: `dense: Vec<V>` holding the values and
`sparse: Vec<Option<NonMaxU32>>` mapping an entity index to a dense position. -/
structure EntitySparseSet (V : Type) where
  dense : List V
  sparse : List (Option Nat)
deriving DecidableEq, Repr

variable {V : Type}

/-- Model of `<EntitySparseSet<V> as Default>::default()`: both vectors empty. -/
def EntitySparseSet.default : EntitySparseSet V :=
  { dense := [], sparse := [] }

/-- Model of `EntitySparseSet::get`.  The source reads
`self.sparse.get(entity.index() as usize)?` and, when the slot holds `Some(index)`,
returns `self.dense.get_unchecked(index.get() as usize)`; the unchecked read is modelled
by `List.getElem?`, and the in-bounds invariant making it defined is proved separately. -/
def EntitySparseSet.get (s : EntitySparseSet V) (entity : Entity) : Option V :=
  match s.sparse[entity.index]? with
  | none => none
  | some none => none
  | some (some index) => s.dense[index]?

/-- Model of `EntitySparseSet::insert`:
* slot holds `Some(dense_index)`: overwrite `dense[dense_index]` in place;
* slot holds `None`: store `dense.len() as u32` in the slot and push the value;
* index out of sparse bounds: `resize(index + 1, None)` (modelled by appending
  `None` padding), store `dense.len() as u32` in the slot, and push the value. -/
def EntitySparseSet.insert (s : EntitySparseSet V) (entity : Entity) (value : V) :
    EntitySparseSet V :=
  match s.sparse[entity.index]? with
  | some (some dense_index) =>
      { s with dense := s.dense.set dense_index value }
  | some none =>
      { dense := s.dense ++ [value],
        sparse := s.sparse.set entity.index (some (s.dense.length % U32SIZE)) }
  | none =>
      { dense := s.dense ++ [value],
        sparse := (s.sparse ++ List.replicate (entity.index + 1 - s.sparse.length) none).set
          entity.index (some (s.dense.length % U32SIZE)) }

/-- Model of `EntitySparseSet::contains`: in-bounds slot holding `Some(_)`. -/
def EntitySparseSet.contains (s : EntitySparseSet V) (entity : Entity) : Bool :=
  match s.sparse[entity.index]? with
  | some index => index.isSome
  | none => false

/-- Model of `EntitySparseSet::clear`: `self.sparse.clear(); self.dense.clear()`. -/
def EntitySparseSet.clear (_s : EntitySparseSet V) : EntitySparseSet V :=
  { dense := [], sparse := [] }

/-- One iteration of the `for_each` loop in `insert_from_slice_unique`, acting on the
pair (sparse array, `dst_len`): grow the sparse array with `resize(index + 1, None)`
when `index >= sparse.len()`, store `dst_len as u32` in the slot, increment `dst_len`. -/
def EntitySparseSet.sliceStep (st : List (Option Nat) × Nat) (e : Entity) :
    List (Option Nat) × Nat :=
  let sparse :=
    if st.1.length ≤ e.index then st.1 ++ List.replicate (e.index + 1 - st.1.length) none
    else st.1
  (sparse.set e.index (some (st.2 % U32SIZE)), st.2 + 1)

/-- Model of `EntitySparseSet::insert_from_slice_unique`.  The function first executes
`assert!(entites.len() == values.len() && self.dense.len() + entites.len() < u32::MAX)`;
a failed assert panics before any mutation, modelled by `Except.error` carrying the
(unchanged) input state.  On success the values are appended to `dense` in one bulk copy
(`copy_nonoverlapping` + `set_len`) and the loop records positions `dst_len, dst_len+1, …`
in the sparse slots of the given entities, in order. -/
def EntitySparseSet.insert_from_slice_unique (s : EntitySparseSet V) (entites : List Entity)
    (values : List V) : Except (EntitySparseSet V) (EntitySparseSet V) :=
  if entites.length = values.length ∧ s.dense.length + entites.length < U32MAX then
    Except.ok
      { dense := s.dense ++ values,
        sparse := (entites.foldl EntitySparseSet.sliceStep (s.sparse, s.dense.length)).1 }
  else
    Except.error s

/-- Defined-behavior condition for a call `s.insert entity value`:
* the overwrite branch executes `self.dense.get_unchecked_mut(dense_index)`, whose
  safety precondition is `dense_index < dense.len()`;
* both appending branches execute `NonMaxU32::new_unchecked(self.dense.len() as u32)`,
  whose safety precondition is that the value differ from `u32::MAX`. -/
def EntitySparseSet.insertDefined (s : EntitySparseSet V) (entity : Entity) : Prop :=
  match s.sparse[entity.index]? with
  | some (some dense_index) => dense_index < s.dense.length
  | _ => s.dense.length % U32SIZE ≠ U32MAX

/-- A sparse slot `i` is present and holds dense position `d`. -/
def EntitySparseSet.Present (s : EntitySparseSet V) (i d : Nat) : Prop :=
  s.sparse[i]? = some (some d)

/-- Every present sparse slot holds a dense position strictly below the dense length,
so the unchecked dense access performed by `get` is in bounds. -/
def EntitySparseSet.InBounds (s : EntitySparseSet V) : Prop :=
  ∀ i d, s.Present i d → d < s.dense.length

/-- No two distinct present sparse slots hold the same dense position. -/
def EntitySparseSet.InjOnPresent (s : EntitySparseSet V) : Prop :=
  ∀ i j d, s.Present i d → s.Present j d → i = j

/-- Every dense position below the dense length is held by some present sparse slot. -/
def EntitySparseSet.SurjOnPresent (s : EntitySparseSet V) : Prop :=
  ∀ d, d < s.dense.length → ∃ i, s.Present i d

/-- The caller-side precondition of `insert_from_slice_unique`, as documented:
matching lengths, the capacity bound of the assert, pairwise-distinct entity indices,
and no entity already present in the container. -/
def SliceUniquePre (s : EntitySparseSet V) (entites : List Entity) (values : List V) : Prop :=
  entites.length = values.length ∧
  s.dense.length + entites.length < U32MAX ∧
  (entites.map Entity.index).Pairwise (fun a b => a ≠ b) ∧
  ∀ e ∈ entites, s.contains e = false

/-- States reachable from the empty container by any sequence of `insert` and `clear`
calls and of `insert_from_slice_unique` calls whose uniqueness/length/capacity
preconditions are satisfied (and which therefore return successfully). -/
inductive Reachable : EntitySparseSet V → Prop where
  | default : Reachable EntitySparseSet.default
  | insert (s : EntitySparseSet V) (e : Entity) (v : V) :
      Reachable s → Reachable (s.insert e v)
  | clear (s : EntitySparseSet V) : Reachable s → Reachable s.clear
  | slice (s t : EntitySparseSet V) (entites : List Entity) (values : List V) :
      Reachable s → SliceUniquePre s entites values →
      s.insert_from_slice_unique entites values = Except.ok t → Reachable t

/-- States reachable from the empty container by defined-behavior executions: as
`Reachable`, but an `insert` step additionally requires its unchecked operations to
have their safety preconditions met (`insertDefined`), since a Rust execution that
violates them has no defined result state. -/
inductive ReachableDB : EntitySparseSet V → Prop where
  | default : ReachableDB EntitySparseSet.default
  | insert (s : EntitySparseSet V) (e : Entity) (v : V) :
      ReachableDB s → s.insertDefined e → ReachableDB (s.insert e v)
  | clear (s : EntitySparseSet V) : ReachableDB s → ReachableDB s.clear
  | slice (s t : EntitySparseSet V) (entites : List Entity) (values : List V) :
      ReachableDB s → SliceUniquePre s entites values →
      s.insert_from_slice_unique entites values = Except.ok t → ReachableDB t

/-- Sequential insertion of a list of (entity, value) pairs, left to right. -/
def insertSeq (s : EntitySparseSet V) (l : List (Entity × V)) : EntitySparseSet V :=
  l.foldl (fun t p => t.insert p.1 p.2) s

/-- The value of the most recent pair in `l` whose entity has raw index `i`. -/
def lastValueFor (l : List (Entity × V)) (i : Nat) : Option V :=
  (l.reverse.find? (fun p => p.1.index == i)).map Prod.snd

/-- Combined well-formedness of a container state: the sparse-to-dense links are
in bounds, injective and surjective onto the dense positions, the dense length equals
the number of present sparse slots, and the dense length stays within the range a
`NonMaxU32` position can address. -/
structure EntitySparseSet.Wf (s : EntitySparseSet V) : Prop where
  bounds : s.InBounds
  inj : s.InjOnPresent
  surj : s.SurjOnPresent
  card : s.sparse.countP (fun o => o.isSome) = s.dense.length
  cap : s.dense.length ≤ U32MAX

/-- The smallest sparse-array size covering every index in `idxs`: one more than the
largest index, or zero when `idxs` is empty. -/
def coverLen (idxs : List Nat) : Nat :=
  idxs.foldl (fun m i => max m (i + 1)) 0

/-- One call to the container API, for reasoning about whole call sequences. -/
inductive Op (V : Type) where
  | ins : Entity → V → Op V
  | clr : Op V
  | bulk : List Entity → List V → Op V

/-- The state after one call; a panicking `insert_from_slice_unique` leaves the state
it carries in `Except.error`, which is the unchanged input state. -/
def applyOp (s : EntitySparseSet V) : Op V → EntitySparseSet V
  | Op.ins e v => s.insert e v
  | Op.clr => s.clear
  | Op.bulk es vs =>
      match s.insert_from_slice_unique es vs with
      | Except.ok t => t
      | Except.error t => t

/-- The raw indices inserted since the last `clear`, updated by one call from state `s`:
`insert` records its index, `clear` empties the record, a successful bulk insert records
all its indices and a panicking one records nothing. -/
def recordOp (acc : List Nat) (s : EntitySparseSet V) : Op V → List Nat
  | Op.ins e _ => acc ++ [e.index]
  | Op.clr => []
  | Op.bulk es vs =>
      match s.insert_from_slice_unique es vs with
      | Except.ok _ => acc ++ es.map Entity.index
      | Except.error _ => acc

/-- Run a call sequence from the empty container, returning the final state together
with the raw indices inserted since the last `clear`. -/
def runTrace (ops : List (Op V)) : EntitySparseSet V × List Nat :=
  ops.foldl (fun p op => (applyOp p.1 op, recordOp p.2 p.1 op)) (EntitySparseSet.default, [])

/-- A container whose dense array already holds `u32::MAX` values: the state at which
the next appending `insert` reaches the reserved sentinel. -/
def sentinelFullState : EntitySparseSet Unit :=
  { dense := List.replicate U32MAX (), sparse := [] }

example :
    ((EntitySparseSet.default.insert ⟨3⟩ "a").insert ⟨0⟩ "b").get ⟨3⟩ = some "a" := by
  decide

example :
    ((EntitySparseSet.default.insert ⟨3⟩ "a").insert ⟨0⟩ "b").contains ⟨1⟩ = false := by
  decide

example :
    (EntitySparseSet.default.insert_from_slice_unique [⟨1⟩, ⟨0⟩] [(10 : Nat), 20]) =
      Except.ok { dense := [10, 20], sparse := [some 1, some 0] } := by
  rfl

theorem EntitySparseSet.insert_of_present (s : EntitySparseSet V) (e : Entity) (v : V)
    (d : Nat) (h : s.sparse[e.index]? = some (some d)) :
    s.insert e v = { s with dense := s.dense.set d v } := by
  simp [EntitySparseSet.insert, h]

theorem EntitySparseSet.contains_eq_false_of_none (s : EntitySparseSet V) (e : Entity)
    (h : s.sparse[e.index]? = none) : s.contains e = false := by
  simp [EntitySparseSet.contains, h]

theorem EntitySparseSet.contains_eq_false_of_some_none (s : EntitySparseSet V) (e : Entity)
    (h : s.sparse[e.index]? = some none) : s.contains e = false := by
  simp [EntitySparseSet.contains, h]

theorem EntitySparseSet.contains_eq_true_iff (s : EntitySparseSet V) (e : Entity) :
    s.contains e = true ↔ ∃ d, s.Present e.index d := by
  unfold EntitySparseSet.contains EntitySparseSet.Present
  rcases h : s.sparse[e.index]? with _ | (_ | d) <;> simp [h]

theorem EntitySparseSet.sparse_insert_getElem?_ne (s : EntitySparseSet V) (e : Entity)
    (v : V) (j : Nat) (hne : j ≠ e.index) :
    (s.insert e v).sparse[j]? = s.sparse[j]? ∨
      ((s.insert e v).sparse[j]? = some none ∧ s.sparse[j]? = none) := by
  rcases h : s.sparse[e.index]? with _ | (_ | d)
  · have hlen : s.sparse.length ≤ e.index := List.getElem?_eq_none_iff.mp h
    by_cases hj : j < s.sparse.length
    · left
      simp only [EntitySparseSet.insert, h]
      rw [List.getElem?_set_ne hne.symm, List.getElem?_append_left hj]
    · push_neg at hj
      have hj2 : s.sparse[j]? = none := List.getElem?_eq_none_iff.mpr hj
      by_cases hj3 : j < e.index + 1
      · right
        refine ⟨?_, hj2⟩
        simp only [EntitySparseSet.insert, h]
        rw [List.getElem?_set_ne hne.symm, List.getElem?_append_right hj,
          List.getElem?_replicate]
        have : j - s.sparse.length < e.index + 1 - s.sparse.length := by omega
        simp [this]
      · left
        rw [hj2]
        simp only [EntitySparseSet.insert, h]
        rw [List.getElem?_set_ne hne.symm, List.getElem?_append_right hj,
          List.getElem?_replicate]
        have : ¬ (j - s.sparse.length < e.index + 1 - s.sparse.length) := by omega
        simp [this]
  · left
    simp only [EntitySparseSet.insert, h]
    exact List.getElem?_set_ne hne.symm
  · left
    simp only [EntitySparseSet.insert, h]

theorem EntitySparseSet.sparse_insert_getElem?_self (s : EntitySparseSet V) (e : Entity)
    (v : V) (hc : s.contains e = false) :
    (s.insert e v).sparse[e.index]? = some (some (s.dense.length % U32SIZE)) := by
  rcases h : s.sparse[e.index]? with _ | (_ | d)
  · have hlen : s.sparse.length ≤ e.index := List.getElem?_eq_none_iff.mp h
    simp only [EntitySparseSet.insert, h]
    apply List.getElem?_set_self
    rw [List.length_append, List.length_replicate]
    omega
  · simp only [EntitySparseSet.insert, h]
    apply List.getElem?_set_self
    exact (List.getElem?_eq_some_iff.mp h).1
  · exfalso
    simp [EntitySparseSet.contains, h] at hc

theorem EntitySparseSet.dense_insert_of_contains_eq_false (s : EntitySparseSet V)
    (e : Entity) (v : V) (hc : s.contains e = false) :
    (s.insert e v).dense = s.dense ++ [v] := by
  rcases h : s.sparse[e.index]? with _ | (_ | d)
  · simp [EntitySparseSet.insert, h]
  · simp [EntitySparseSet.insert, h]
  · exfalso
    simp [EntitySparseSet.contains, h] at hc

theorem EntitySparseSet.contains_insert_self (s : EntitySparseSet V) (e e' : Entity)
    (v : V) (heq : e'.index = e.index) : (s.insert e v).contains e' = true := by
  rcases hc : s.contains e with _ | _
  · have hslot := s.sparse_insert_getElem?_self e v hc
    simp [EntitySparseSet.contains, heq, hslot]
  · rcases (s.contains_eq_true_iff e).mp hc with ⟨d, hd⟩
    rw [s.insert_of_present e v d hd]
    simp [EntitySparseSet.contains, heq]
    rw [hd]
    rfl

theorem EntitySparseSet.contains_insert_ne (s : EntitySparseSet V) (e e' : Entity)
    (v : V) (hne : e'.index ≠ e.index) : (s.insert e v).contains e' = s.contains e' := by
  rcases s.sparse_insert_getElem?_ne e v e'.index hne with hsl | ⟨hsl, hold⟩
  · unfold EntitySparseSet.contains
    rw [hsl]
  · unfold EntitySparseSet.contains
    rw [hsl, hold]
    rfl

theorem EntitySparseSet.get_insert_self (s : EntitySparseSet V) (e e' : Entity) (v : V)
    (heq : e'.index = e.index) (hB : s.InBounds) (hcap : s.dense.length < U32SIZE) :
    (s.insert e v).get e' = some v := by
  rcases hc : s.contains e with _ | _
  · have hslot := s.sparse_insert_getElem?_self e v hc
    have hdense := s.dense_insert_of_contains_eq_false e v hc
    unfold EntitySparseSet.get
    rw [heq, hslot]
    show (s.insert e v).dense[s.dense.length % U32SIZE]? = some v
    rw [hdense, Nat.mod_eq_of_lt hcap, List.getElem?_concat_length]
  · rcases (s.contains_eq_true_iff e).mp hc with ⟨d, hd⟩
    have hdlt : d < s.dense.length := hB e.index d hd
    rw [s.insert_of_present e v d hd]
    unfold EntitySparseSet.get
    simp only [heq]
    rw [hd]
    exact List.getElem?_set_self hdlt

theorem EntitySparseSet.get_insert_ne (s : EntitySparseSet V) (e e' : Entity) (v : V)
    (hne : e'.index ≠ e.index) (hB : s.InBounds) (hI : s.InjOnPresent) :
    (s.insert e v).get e' = s.get e' := by
  rcases hsl : s.sparse[e'.index]? with _ | (_ | d')
  · rcases s.sparse_insert_getElem?_ne e v e'.index hne with hsl' | ⟨hsl', _⟩
    · unfold EntitySparseSet.get
      rw [hsl', hsl]
    · unfold EntitySparseSet.get
      rw [hsl', hsl]
  · rcases s.sparse_insert_getElem?_ne e v e'.index hne with hsl' | ⟨_, hold⟩
    · unfold EntitySparseSet.get
      rw [hsl', hsl]
    · rw [hold] at hsl
      exact absurd hsl (by simp)
  · rcases s.sparse_insert_getElem?_ne e v e'.index hne with hsl' | ⟨_, hold⟩
    · have hd'lt : d' < s.dense.length := hB e'.index d' hsl
      unfold EntitySparseSet.get
      rw [hsl', hsl]
      show (s.insert e v).dense[d']? = s.dense[d']?
      rcases h : s.sparse[e.index]? with _ | (_ | d)
      · rw [s.dense_insert_of_contains_eq_false e v (s.contains_eq_false_of_none e h)]
        rw [List.getElem?_append_left hd'lt]
      · rw [s.dense_insert_of_contains_eq_false e v (s.contains_eq_false_of_some_none e h)]
        rw [List.getElem?_append_left hd'lt]
      · have hdd' : d ≠ d' := by
          intro hdeq
          subst hdeq
          exact hne (hI e'.index e.index d hsl h)
        rw [s.insert_of_present e v d h]
        exact List.getElem?_set_ne hdd'
    · rw [hold] at hsl
      exact absurd hsl (by simp)

theorem EntitySparseSet.inBounds_insert (s : EntitySparseSet V) (e : Entity) (v : V)
    (hB : s.InBounds) : (s.insert e v).InBounds := by
  intro i d hp
  rcases hc : s.contains e with _ | _
  · have hdense := s.dense_insert_of_contains_eq_false e v hc
    rw [hdense, List.length_append]
    by_cases hi : i = e.index
    · subst hi
      have hslot := s.sparse_insert_getElem?_self e v hc
      unfold EntitySparseSet.Present at hp
      rw [hslot] at hp
      simp only [Option.some.injEq] at hp
      have := Nat.mod_le s.dense.length U32SIZE
      simp only [List.length_cons, List.length_nil]
      omega
    · rcases s.sparse_insert_getElem?_ne e v i hi with hsl' | ⟨hsl', _⟩
      · unfold EntitySparseSet.Present at hp
        rw [hsl'] at hp
        have := hB i d hp
        simp only [List.length_cons, List.length_nil]
        omega
      · unfold EntitySparseSet.Present at hp
        rw [hsl'] at hp
        exact absurd hp (by simp)
  · rcases (s.contains_eq_true_iff e).mp hc with ⟨d₀, hd₀⟩
    rw [s.insert_of_present e v d₀ hd₀] at hp ⊢
    unfold EntitySparseSet.Present at hp
    simp only [List.length_set]
    exact hB i d hp

theorem EntitySparseSet.present_insert_elim (s : EntitySparseSet V) (e : Entity) (v : V)
    (i d : Nat) (hp : (s.insert e v).Present i d) (hc : s.contains e = false) :
    (i = e.index ∧ d = s.dense.length % U32SIZE) ∨ (i ≠ e.index ∧ s.Present i d) := by
  by_cases hi : i = e.index
  · subst hi
    left
    refine ⟨rfl, ?_⟩
    have hslot := s.sparse_insert_getElem?_self e v hc
    unfold EntitySparseSet.Present at hp
    rw [hslot] at hp
    simp only [Option.some.injEq] at hp
    omega
  · right
    refine ⟨hi, ?_⟩
    rcases s.sparse_insert_getElem?_ne e v i hi with hsl' | ⟨hsl', _⟩
    · unfold EntitySparseSet.Present at hp ⊢
      rw [hsl'] at hp
      exact hp
    · unfold EntitySparseSet.Present at hp
      rw [hsl'] at hp
      exact absurd hp (by simp)

theorem EntitySparseSet.present_insert_of_present_ne (s : EntitySparseSet V) (e : Entity)
    (v : V) (i d : Nat) (hi : i ≠ e.index) (hp : s.Present i d) :
    (s.insert e v).Present i d := by
  rcases s.sparse_insert_getElem?_ne e v i hi with hsl' | ⟨_, hold⟩
  · unfold EntitySparseSet.Present at hp ⊢
    rw [hsl', hp]
  · unfold EntitySparseSet.Present at hp
    rw [hold] at hp
    exact absurd hp (by simp)

theorem EntitySparseSet.present_insert_self_of_not_contains (s : EntitySparseSet V)
    (e : Entity) (v : V) (hc : s.contains e = false) :
    (s.insert e v).Present e.index (s.dense.length % U32SIZE) :=
  s.sparse_insert_getElem?_self e v hc

theorem EntitySparseSet.injOnPresent_insert (s : EntitySparseSet V) (e : Entity) (v : V)
    (hB : s.InBounds) (hI : s.InjOnPresent) (hcap : s.dense.length < U32SIZE) :
    (s.insert e v).InjOnPresent := by
  rcases hc : s.contains e with _ | _
  · intro i j d hpi hpj
    rcases s.present_insert_elim e v i d hpi hc with ⟨hi, hdi⟩ | ⟨hi, hpi'⟩ <;>
      rcases s.present_insert_elim e v j d hpj hc with ⟨hj, hdj⟩ | ⟨hj, hpj'⟩
    · rw [hi, hj]
    · exfalso
      rw [Nat.mod_eq_of_lt hcap] at hdi
      have := hB j d hpj'
      omega
    · exfalso
      rw [Nat.mod_eq_of_lt hcap] at hdj
      have := hB i d hpi'
      omega
    · exact hI i j d hpi' hpj'
  · rcases (s.contains_eq_true_iff e).mp hc with ⟨d₀, hd₀⟩
    rw [s.insert_of_present e v d₀ hd₀]
    intro i j d hpi hpj
    exact hI i j d hpi hpj

theorem EntitySparseSet.surjOnPresent_insert (s : EntitySparseSet V) (e : Entity) (v : V)
    (hS : s.SurjOnPresent) (hcap : s.dense.length < U32SIZE) :
    (s.insert e v).SurjOnPresent := by
  rcases hc : s.contains e with _ | _
  · intro d hd
    rw [s.dense_insert_of_contains_eq_false e v hc, List.length_append,
      List.length_cons, List.length_nil] at hd
    by_cases hdl : d < s.dense.length
    · rcases hS d hdl with ⟨i, hi⟩
      by_cases hie : i = e.index
      · exfalso
        subst hie
        rcases hx : s.sparse[e.index]? with _ | (_ | dx)
        · unfold EntitySparseSet.Present at hi
          rw [hx] at hi
          exact absurd hi (by simp)
        · unfold EntitySparseSet.Present at hi
          rw [hx] at hi
          exact absurd hi (by simp)
        · simp [EntitySparseSet.contains, hx] at hc
      · exact ⟨i, s.present_insert_of_present_ne e v i d hie hi⟩
    · have hdd : d = s.dense.length := by omega
      subst hdd
      refine ⟨e.index, ?_⟩
      have := s.present_insert_self_of_not_contains e v hc
      rw [Nat.mod_eq_of_lt hcap] at this
      exact this
  · rcases (s.contains_eq_true_iff e).mp hc with ⟨d₀, hd₀⟩
    rw [s.insert_of_present e v d₀ hd₀]
    intro d hd
    rw [List.length_set] at hd
    exact hS d hd

theorem EntitySparseSet.card_insert (s : EntitySparseSet V) (e : Entity) (v : V)
    (hcard : s.sparse.countP (fun o => o.isSome) = s.dense.length) :
    (s.insert e v).sparse.countP (fun o => o.isSome) = (s.insert e v).dense.length := by
  rcases h : s.sparse[e.index]? with _ | (_ | d)
  · have hlen : s.sparse.length ≤ e.index := List.getElem?_eq_none_iff.mp h
    simp only [EntitySparseSet.insert, h]
    have hb : e.index < (s.sparse ++ List.replicate (e.index + 1 - s.sparse.length) none).length := by
      rw [List.length_append, List.length_replicate]
      omega
    rw [List.countP_set _ _ _ _ hb]
    have hslot : (s.sparse ++ List.replicate (e.index + 1 - s.sparse.length) none)[e.index] =
        none := by
      have : (s.sparse ++ List.replicate (e.index + 1 - s.sparse.length) none)[e.index]? =
          some none := by
        rw [List.getElem?_append_right hlen, List.getElem?_replicate]
        have : e.index - s.sparse.length < e.index + 1 - s.sparse.length := by omega
        simp [this]
      rcases List.getElem?_eq_some_iff.mp this with ⟨h1, h2⟩
      exact h2
    rw [hslot]
    simp only [List.countP_append, List.countP_replicate]
    simp [hcard]
  · simp only [EntitySparseSet.insert, h]
    have hb : e.index < s.sparse.length := (List.getElem?_eq_some_iff.mp h).1
    rw [List.countP_set _ _ _ _ hb]
    have hslot : s.sparse[e.index] = none := (List.getElem?_eq_some_iff.mp h).2
    rw [hslot]
    simp [hcard]
  · simp only [EntitySparseSet.insert, h]
    simp [hcard]

theorem lt_U32MAX_of_mod_ne (n : Nat) (hcap : n ≤ U32MAX) (hne : n % U32SIZE ≠ U32MAX) :
    n < U32MAX := by
  rcases Nat.lt_or_ge n U32MAX with h' | h'
  · exact h'
  · exfalso
    apply hne
    have hn : n = U32MAX := Nat.le_antisymm hcap h'
    rw [hn]
    exact Nat.mod_eq_of_lt (by norm_num [U32MAX, U32SIZE])

theorem EntitySparseSet.insertDefined_of_not_contains (s : EntitySparseSet V) (e : Entity)
    (hc : s.contains e = false) (hlt : s.dense.length < U32MAX) : s.insertDefined e := by
  have hmod : s.dense.length % U32SIZE = s.dense.length :=
    Nat.mod_eq_of_lt (lt_trans hlt (by norm_num [U32MAX, U32SIZE]))
  unfold EntitySparseSet.insertDefined
  rcases h : s.sparse[e.index]? with _ | (_ | d)
  · show s.dense.length % U32SIZE ≠ U32MAX
    omega
  · show s.dense.length % U32SIZE ≠ U32MAX
    omega
  · exfalso
    simp [EntitySparseSet.contains, h] at hc

theorem EntitySparseSet.cap_insert (s : EntitySparseSet V) (e : Entity) (v : V)
    (hcap : s.dense.length ≤ U32MAX) (hdef : s.insertDefined e) :
    (s.insert e v).dense.length ≤ U32MAX := by
  rcases h : s.sparse[e.index]? with _ | (_ | d)
  · have hdef' : s.dense.length % U32SIZE ≠ U32MAX := by
      unfold EntitySparseSet.insertDefined at hdef
      rw [h] at hdef
      exact hdef
    have hlt := lt_U32MAX_of_mod_ne s.dense.length hcap hdef'
    rw [s.dense_insert_of_contains_eq_false e v (s.contains_eq_false_of_none e h)]
    simp only [List.length_append, List.length_cons, List.length_nil]
    omega
  · have hdef' : s.dense.length % U32SIZE ≠ U32MAX := by
      unfold EntitySparseSet.insertDefined at hdef
      rw [h] at hdef
      exact hdef
    have hlt := lt_U32MAX_of_mod_ne s.dense.length hcap hdef'
    rw [s.dense_insert_of_contains_eq_false e v (s.contains_eq_false_of_some_none e h)]
    simp only [List.length_append, List.length_cons, List.length_nil]
    omega
  · rw [s.insert_of_present e v d h]
    simp only [List.length_set]
    exact hcap

theorem EntitySparseSet.wf_insert (s : EntitySparseSet V) (e : Entity) (v : V)
    (hw : s.Wf) (hdef : s.insertDefined e) : (s.insert e v).Wf := by
  have hcap2 : s.dense.length < U32SIZE :=
    lt_of_le_of_lt hw.cap (by norm_num [U32MAX, U32SIZE])
  exact ⟨s.inBounds_insert e v hw.bounds,
    s.injOnPresent_insert e v hw.bounds hw.inj hcap2,
    s.surjOnPresent_insert e v hw.surj hcap2,
    s.card_insert e v hw.card,
    s.cap_insert e v hw.cap hdef⟩

theorem EntitySparseSet.wf_default : (EntitySparseSet.default : EntitySparseSet V).Wf := by
  refine ⟨?_, ?_, ?_, ?_, ?_⟩
  · intro i d hp
    simp [EntitySparseSet.Present, EntitySparseSet.default] at hp
  · intro i j d hpi hpj
    simp [EntitySparseSet.Present, EntitySparseSet.default] at hpi
  · intro d hd
    simp [EntitySparseSet.default] at hd
  · simp [EntitySparseSet.default]
  · simp [EntitySparseSet.default]

theorem EntitySparseSet.clear_eq_default (s : EntitySparseSet V) :
    s.clear = EntitySparseSet.default := rfl

theorem EntitySparseSet.sliceStep_eq (s : EntitySparseSet V) (e : Entity) (v : V)
    (hc : s.contains e = false) :
    EntitySparseSet.sliceStep (s.sparse, s.dense.length) e =
      ((s.insert e v).sparse, (s.insert e v).dense.length) := by
  have hdense := s.dense_insert_of_contains_eq_false e v hc
  rcases h : s.sparse[e.index]? with _ | (_ | d)
  · have hlen : s.sparse.length ≤ e.index := List.getElem?_eq_none_iff.mp h
    simp only [EntitySparseSet.sliceStep, EntitySparseSet.insert, h, hdense]
    rw [if_pos hlen]
    simp [EntitySparseSet.insert, h]
  · have hlt : e.index < s.sparse.length := (List.getElem?_eq_some_iff.mp h).1
    simp only [EntitySparseSet.sliceStep, EntitySparseSet.insert, h, hdense]
    rw [if_neg (by omega)]
    simp [EntitySparseSet.insert, h]
  · exfalso
    simp [EntitySparseSet.contains, h] at hc

theorem EntitySparseSet.slice_fold_eq_insertSeq (entites : List Entity) (values : List V)
    (s : EntitySparseSet V) (hlen : entites.length = values.length)
    (hdist : (entites.map Entity.index).Pairwise (fun a b => a ≠ b))
    (habs : ∀ e ∈ entites, s.contains e = false) :
    ({ dense := s.dense ++ values,
       sparse := (entites.foldl EntitySparseSet.sliceStep (s.sparse, s.dense.length)).1 } :
      EntitySparseSet V) = insertSeq s (entites.zip values) := by
  induction entites generalizing values s with
  | nil =>
    rcases values with _ | ⟨v, vs⟩
    · simp [insertSeq]
    · simp at hlen
  | cons e es ih =>
    rcases values with _ | ⟨v, vs⟩
    · simp at hlen
    · have hc : s.contains e = false := habs e (by simp)
      have hstep := s.sliceStep_eq e v hc
      have hdense := s.dense_insert_of_contains_eq_false e v hc
      simp only [List.map_cons, List.pairwise_cons] at hdist
      have hlen' : es.length = vs.length := by
        simp only [List.length_cons] at hlen
        omega
      have habs' : ∀ e' ∈ es, (s.insert e v).contains e' = false := by
        intro e' he'
        have hne : e'.index ≠ e.index := by
          intro hq
          exact hdist.1 e'.index (List.mem_map_of_mem Entity.index he') hq.symm
        rw [s.contains_insert_ne e e' v hne]
        exact habs e' (List.mem_cons_of_mem e he')
      have key := ih vs (s.insert e v) hlen' hdist.2 habs'
      simp only [List.zip_cons_cons, insertSeq, List.foldl_cons] at key ⊢
      rw [hstep, ← key, hdense]
      simp [List.append_assoc]

theorem EntitySparseSet.slice_ok_of_pre (s : EntitySparseSet V) (entites : List Entity)
    (values : List V) (hpre : SliceUniquePre s entites values) :
    s.insert_from_slice_unique entites values =
      Except.ok (insertSeq s (entites.zip values)) := by
  obtain ⟨hlen, hcap, hdist, habs⟩ := hpre
  unfold EntitySparseSet.insert_from_slice_unique
  rw [if_pos ⟨hlen, hcap⟩,
    EntitySparseSet.slice_fold_eq_insertSeq entites values s hlen hdist habs]

theorem EntitySparseSet.slice_error_iff (s : EntitySparseSet V) (entites : List Entity)
    (values : List V) :
    s.insert_from_slice_unique entites values = Except.error s ↔
      (entites.length ≠ values.length ∨ U32MAX ≤ s.dense.length + entites.length) := by
  unfold EntitySparseSet.insert_from_slice_unique
  by_cases hcond : entites.length = values.length ∧ s.dense.length + entites.length < U32MAX
  · rw [if_pos hcond]
    simp only [reduceCtorEq, false_iff]
    push_neg
    exact ⟨hcond.1, hcond.2⟩
  · rw [if_neg hcond]
    simp only [true_iff]
    push_neg at hcond
    by_cases h1 : entites.length = values.length
    · right
      have := hcond h1
      omega
    · left
      exact h1

theorem EntitySparseSet.inBounds_insertSeq (l : List (Entity × V)) (s : EntitySparseSet V)
    (hB : s.InBounds) : (insertSeq s l).InBounds := by
  induction l generalizing s with
  | nil => exact hB
  | cons p l ih => exact ih _ (s.inBounds_insert p.1 p.2 hB)

theorem EntitySparseSet.reachable_inBounds (s : EntitySparseSet V) (h : Reachable s) :
    s.InBounds := by
  induction h with
  | default =>
    intro i d hp
    simp [EntitySparseSet.Present, EntitySparseSet.default] at hp
  | insert s e v _ ih => exact s.inBounds_insert e v ih
  | clear s _ _ =>
    intro i d hp
    simp [EntitySparseSet.Present, EntitySparseSet.clear] at hp
  | slice s t es vs _ hpre hok ih =>
    rw [s.slice_ok_of_pre es vs hpre] at hok
    cases hok
    exact EntitySparseSet.inBounds_insertSeq _ s ih

theorem EntitySparseSet.wf_insertSeq_fresh (es : List Entity) (vs : List V)
    (s : EntitySparseSet V) (hw : s.Wf) (hlen : es.length = vs.length)
    (hdist : (es.map Entity.index).Pairwise (fun a b => a ≠ b))
    (habs : ∀ e ∈ es, s.contains e = false)
    (hcap : s.dense.length + es.length < U32MAX) :
    (insertSeq s (es.zip vs)).Wf := by
  induction es generalizing vs s with
  | nil => exact hw
  | cons e es ih =>
    rcases vs with _ | ⟨v, vs⟩
    · simp at hlen
    · have hc : s.contains e = false := habs e (by simp)
      have hlt : s.dense.length < U32MAX := by
        simp only [List.length_cons] at hcap
        omega
      have hdef : s.insertDefined e := s.insertDefined_of_not_contains e hc hlt
      have hdense := s.dense_insert_of_contains_eq_false e v hc
      simp only [List.map_cons, List.pairwise_cons] at hdist
      have hlen' : es.length = vs.length := by
        simp only [List.length_cons] at hlen
        omega
      have habs' : ∀ e' ∈ es, (s.insert e v).contains e' = false := by
        intro e' he'
        have hne : e'.index ≠ e.index := by
          intro hq
          exact hdist.1 e'.index (List.mem_map_of_mem Entity.index he') hq.symm
        rw [s.contains_insert_ne e e' v hne]
        exact habs e' (List.mem_cons_of_mem e he')
      have hcap' : (s.insert e v).dense.length + es.length < U32MAX := by
        rw [hdense]
        simp only [List.length_append, List.length_cons, List.length_nil] at hcap ⊢
        omega
      have := ih vs (s.insert e v) (s.wf_insert e v hw hdef) hlen' hdist.2 habs' hcap'
      simpa [insertSeq] using this

theorem EntitySparseSet.reachableDB_wf (s : EntitySparseSet V) (h : ReachableDB s) :
    s.Wf := by
  induction h with
  | default => exact EntitySparseSet.wf_default
  | insert s e v _ hdef ih => exact s.wf_insert e v ih hdef
  | clear s _ _ =>
    rw [s.clear_eq_default]
    exact EntitySparseSet.wf_default
  | slice s t es vs _ hpre hok ih =>
    rw [s.slice_ok_of_pre es vs hpre] at hok
    cases hok
    obtain ⟨hlen, hcap, hdist, habs⟩ := hpre
    exact EntitySparseSet.wf_insertSeq_fresh es vs s ih hlen hdist habs hcap

theorem EntitySparseSet.dense_insert_length_le (s : EntitySparseSet V) (e : Entity) (v : V) :
    (s.insert e v).dense.length ≤ s.dense.length + 1 := by
  rcases h : s.sparse[e.index]? with _ | (_ | d) <;>
    simp [EntitySparseSet.insert, h]

theorem EntitySparseSet.get_insertSeq_of_not_mem (l : List (Entity × V))
    (s : EntitySparseSet V) (e : Entity) (hB : s.InBounds) (hI : s.InjOnPresent)
    (hcap : s.dense.length + l.length ≤ U32SIZE)
    (hnm : ∀ p ∈ l, p.1.index ≠ e.index) :
    (insertSeq s l).get e = s.get e := by
  induction l generalizing s with
  | nil => rfl
  | cons p l ih =>
    have hlt : s.dense.length < U32SIZE := by
      simp only [List.length_cons] at hcap
      omega
    have hB' := s.inBounds_insert p.1 p.2 hB
    have hI' := s.injOnPresent_insert p.1 p.2 hB hI hlt
    have hcap' : (s.insert p.1 p.2).dense.length + l.length ≤ U32SIZE := by
      have := s.dense_insert_length_le p.1 p.2
      simp only [List.length_cons] at hcap
      omega
    have step := ih (s.insert p.1 p.2) hB' hI' hcap'
      (fun q hq => hnm q (List.mem_cons_of_mem p hq))
    show (insertSeq (s.insert p.1 p.2) l).get e = s.get e
    rw [step]
    exact s.get_insert_ne p.1 e p.2 (Ne.symm (hnm p (List.mem_cons_self p l))) hB hI

theorem EntitySparseSet.get_insertSeq_last (l : List (Entity × V)) (s : EntitySparseSet V)
    (e : Entity) (v : V) (hB : s.InBounds) (hI : s.InjOnPresent)
    (hcap : s.dense.length + l.length ≤ U32SIZE)
    (hlast : lastValueFor l e.index = some v) :
    (insertSeq s l).get e = some v := by
  induction l generalizing s with
  | nil => simp [lastValueFor] at hlast
  | cons p l ih =>
    have hlt : s.dense.length < U32SIZE := by
      simp only [List.length_cons] at hcap
      omega
    have hB' := s.inBounds_insert p.1 p.2 hB
    have hI' := s.injOnPresent_insert p.1 p.2 hB hI hlt
    have hcap' : (s.insert p.1 p.2).dense.length + l.length ≤ U32SIZE := by
      have := s.dense_insert_length_le p.1 p.2
      simp only [List.length_cons] at hcap
      omega
    rcases hfind : l.reverse.find? (fun q => q.1.index == e.index) with _ | q
    · have hnm : ∀ q ∈ l, q.1.index ≠ e.index := by
        intro q hq hqe
        have hq' : q ∈ l.reverse := List.mem_reverse.mpr hq
        have := List.find?_eq_none.mp hfind q hq'
        simp [hqe] at this
      simp only [lastValueFor, List.reverse_cons, List.find?_append, hfind] at hlast
      simp only [Option.or, List.find?] at hlast
      rcases hbeq : (p.1.index == e.index) with _ | _
      · rw [hbeq] at hlast
        simp at hlast
      · rw [hbeq] at hlast
        simp only [Option.map_some] at hlast
        have he : p.1.index = e.index := eq_of_beq hbeq
        have hv : p.2 = v := by
          injection hlast
        show (insertSeq (s.insert p.1 p.2) l).get e = some v
        rw [EntitySparseSet.get_insertSeq_of_not_mem l (s.insert p.1 p.2) e hB' hI' hcap' hnm]
        rw [s.get_insert_self p.1 e p.2 he.symm hB hlt]
        rw [hv]
    · have hlast' : lastValueFor l e.index = some v := by
        simp only [lastValueFor, List.reverse_cons, List.find?_append, hfind] at hlast ⊢
        simpa [Option.or] using hlast
      exact ih (s.insert p.1 p.2) hB' hI' hcap' hlast'

theorem EntitySparseSet.sparse_length_insert (s : EntitySparseSet V) (e : Entity) (v : V) :
    (s.insert e v).sparse.length = max s.sparse.length (e.index + 1) := by
  rcases h : s.sparse[e.index]? with _ | (_ | d)
  · have hlen : s.sparse.length ≤ e.index := List.getElem?_eq_none_iff.mp h
    simp only [EntitySparseSet.insert, h, List.length_set, List.length_append,
      List.length_replicate]
    omega
  · have hlt : e.index < s.sparse.length := (List.getElem?_eq_some_iff.mp h).1
    simp only [EntitySparseSet.insert, h, List.length_set]
    omega
  · have hlt : e.index < s.sparse.length := (List.getElem?_eq_some_iff.mp h).1
    simp only [EntitySparseSet.insert, h]
    omega

theorem EntitySparseSet.sliceStep_length (st : List (Option Nat) × Nat) (e : Entity) :
    (EntitySparseSet.sliceStep st e).1.length = max st.1.length (e.index + 1) := by
  by_cases h : st.1.length ≤ e.index
  · simp only [EntitySparseSet.sliceStep]
    rw [if_pos h]
    simp only [List.length_set, List.length_append, List.length_replicate]
    omega
  · simp only [EntitySparseSet.sliceStep]
    rw [if_neg h]
    simp only [List.length_set]
    omega

theorem EntitySparseSet.slice_fold_length (es : List Entity) (st : List (Option Nat) × Nat) :
    (es.foldl EntitySparseSet.sliceStep st).1.length =
      es.foldl (fun m e => max m (e.index + 1)) st.1.length := by
  induction es generalizing st with
  | nil => rfl
  | cons e es ih =>
    simp only [List.foldl_cons]
    rw [ih, EntitySparseSet.sliceStep_length]

theorem coverLen_append (l₁ l₂ : List Nat) :
    coverLen (l₁ ++ l₂) = l₂.foldl (fun m i => max m (i + 1)) (coverLen l₁) := by
  simp [coverLen, List.foldl_append]

theorem le_foldl_max (l : List Nat) (n : Nat) :
    n ≤ l.foldl (fun m i => max m (i + 1)) n := by
  induction l generalizing n with
  | nil => exact Nat.le_refl n
  | cons i l ih => exact le_trans (Nat.le_max_left n (i + 1)) (ih (max n (i + 1)))

theorem EntitySparseSet.slice_ok_elim (s t : EntitySparseSet V) (es : List Entity)
    (vs : List V) (hok : s.insert_from_slice_unique es vs = Except.ok t) :
    t = { dense := s.dense ++ vs,
          sparse := (es.foldl EntitySparseSet.sliceStep (s.sparse, s.dense.length)).1 } := by
  unfold EntitySparseSet.insert_from_slice_unique at hok
  by_cases hcond : es.length = vs.length ∧ s.dense.length + es.length < U32MAX
  · rw [if_pos hcond] at hok
    cases hok
    rfl
  · rw [if_neg hcond] at hok
    cases hok

theorem EntitySparseSet.slice_error_elim (s t : EntitySparseSet V) (es : List Entity)
    (vs : List V) (herr : s.insert_from_slice_unique es vs = Except.error t) : t = s := by
  unfold EntitySparseSet.insert_from_slice_unique at herr
  by_cases hcond : es.length = vs.length ∧ s.dense.length + es.length < U32MAX
  · rw [if_pos hcond] at herr
    cases herr
  · rw [if_neg hcond] at herr
    cases herr
    rfl

theorem EntitySparseSet.contains_eq_isSome_get_of_inBounds (s : EntitySparseSet V)
    (e : Entity) (hB : s.InBounds) : s.contains e = (s.get e).isSome := by
  unfold EntitySparseSet.contains EntitySparseSet.get
  rcases h : s.sparse[e.index]? with _ | (_ | d)
  · rfl
  · rfl
  · have hd := hB e.index d h
    show true = (s.dense[d]?).isSome
    rw [List.getElem?_eq_getElem hd]
    rfl

theorem le_foldl_max_entity (es : List Entity) (n : Nat) :
    n ≤ es.foldl (fun m e => max m (e.index + 1)) n := by
  induction es generalizing n with
  | nil => exact Nat.le_refl n
  | cons e es ih => exact le_trans (Nat.le_max_left n (e.index + 1)) (ih (max n (e.index + 1)))

theorem runTrace_aux (ops : List (Op V)) (s : EntitySparseSet V) (acc : List Nat)
    (h : s.sparse.length = coverLen acc) :
    (ops.foldl (fun p op => (applyOp p.1 op, recordOp p.2 p.1 op)) (s, acc)).1.sparse.length =
      coverLen
        (ops.foldl (fun p op => (applyOp p.1 op, recordOp p.2 p.1 op)) (s, acc)).2 := by
  induction ops generalizing s acc with
  | nil => exact h
  | cons op ops ih =>
    simp only [List.foldl_cons]
    apply ih
    rcases op with ⟨e, v⟩ | _ | ⟨es, vs⟩
    · simp only [applyOp, recordOp]
      rw [EntitySparseSet.sparse_length_insert, coverLen_append, h]
      simp only [List.foldl_cons, List.foldl_nil]
    · simp only [applyOp, recordOp]
      rfl
    · rcases hres : s.insert_from_slice_unique es vs with t | t
      · have ht := EntitySparseSet.slice_error_elim s t es vs hres
        simp only [applyOp, recordOp, hres]
        rw [ht]
        exact h
      · have ht := EntitySparseSet.slice_ok_elim s t es vs hres
        simp only [applyOp, recordOp, hres]
        rw [ht]
        show (es.foldl EntitySparseSet.sliceStep (s.sparse, s.dense.length)).1.length =
          coverLen (acc ++ es.map Entity.index)
        rw [EntitySparseSet.slice_fold_length, coverLen_append, List.foldl_map, ← h]

/-- C1: in every container state reachable from the empty container by any sequence of
`insert` and `clear` calls and of `insert_from_slice_unique` calls satisfying their
uniqueness/length/capacity preconditions, every sparse slot holding a present dense
position `d` satisfies `d < dense.length`, so the unchecked dense access performed by
`get` at that position is in bounds. -/
theorem spec_C1_repr_invariant (s : EntitySparseSet V) (h : Reachable s) :
    ∀ i d, s.Present i d → d < s.dense.length :=
  s.reachable_inBounds h

theorem spec_C1_repr_invariant_witness :
    (0 : Nat) < (EntitySparseSet.default.insert ⟨5⟩ (7 : Nat)).dense.length :=
  spec_C1_repr_invariant _ (Reachable.insert EntitySparseSet.default ⟨5⟩ 7 Reachable.default)
    5 0 (show (EntitySparseSet.default.insert ⟨5⟩ (7 : Nat)).sparse[5]? = some (some 0) by
      decide)

/-- C2: starting from any container state satisfying the representation invariant
(in-bounds and injective sparse links — which holds in every reachable state, cf. C1 and
C10) and staying within the `u32` range, after any sequence of `insert` calls, `get`
returns exactly the value of the most recent insert whose entity has the same raw index,
unaffected by interleaved inserts at other indices. -/
theorem spec_C2_round_trip (s : EntitySparseSet V) (ops : List (Entity × V)) (e : Entity)
    (v : V) (hB : s.InBounds) (hI : s.InjOnPresent)
    (hcap : s.dense.length + ops.length ≤ U32SIZE)
    (hlast : lastValueFor ops e.index = some v) :
    (insertSeq s ops).get e = some v :=
  EntitySparseSet.get_insertSeq_last ops s e v hB hI hcap hlast

theorem spec_C2_round_trip_witness :
    (insertSeq EntitySparseSet.default
        [(⟨0⟩, (1 : Nat)), (⟨1⟩, 2), (⟨0⟩, 3)]).get ⟨0⟩ = some 3 :=
  spec_C2_round_trip EntitySparseSet.default [(⟨0⟩, (1 : Nat)), (⟨1⟩, 2), (⟨0⟩, 3)] ⟨0⟩ 3
    EntitySparseSet.wf_default.bounds EntitySparseSet.wf_default.inj (by decide) (by decide)

/-- C3: in every reachable container state, `contains` returns `true` exactly when `get`
returns a value; both perform the same bounds-and-presence check on the sparse array. -/
theorem spec_C3_contains_iff_get (s : EntitySparseSet V) (e : Entity) (h : Reachable s) :
    s.contains e = (s.get e).isSome :=
  s.contains_eq_isSome_get_of_inBounds e (s.reachable_inBounds h)

theorem spec_C3_contains_iff_get_witness :
    (EntitySparseSet.default.insert ⟨2⟩ (9 : Nat)).contains ⟨2⟩ =
      ((EntitySparseSet.default.insert ⟨2⟩ (9 : Nat)).get ⟨2⟩).isSome :=
  spec_C3_contains_iff_get _ ⟨2⟩
    (Reachable.insert EntitySparseSet.default ⟨2⟩ 9 Reachable.default)

/-- C4: when the entity's index is already present with dense position `d` (which, per
the representation invariant, is in bounds), `insert` overwrites `dense[d]` in place and
changes nothing else: the sparse array (hence the stored position and its length) and
every other dense entry, as well as the dense length, are unchanged. -/
theorem spec_C4_overwrite_frame (s : EntitySparseSet V) (e : Entity) (v : V) (d : Nat)
    (hp : s.Present e.index d) (hd : d < s.dense.length) :
    (s.insert e v).sparse = s.sparse ∧
    (s.insert e v).dense.length = s.dense.length ∧
    (s.insert e v).dense[d]? = some v ∧
    ∀ k, k ≠ d → (s.insert e v).dense[k]? = s.dense[k]? := by
  rw [s.insert_of_present e v d hp]
  exact ⟨rfl, List.length_set s.dense d v, List.getElem?_set_self hd,
    fun k hk => List.getElem?_set_ne (Ne.symm hk)⟩

theorem spec_C4_overwrite_frame_witness :
    ((EntitySparseSet.default.insert ⟨0⟩ (1 : Nat)).insert ⟨0⟩ 2).dense[0]? = some 2 :=
  (spec_C4_overwrite_frame (EntitySparseSet.default.insert ⟨0⟩ (1 : Nat)) ⟨0⟩ 2 0
    (show (EntitySparseSet.default.insert ⟨0⟩ (1 : Nat)).sparse[(0 : Nat)]? =
        some (some 0) by decide)
    (by decide)).2.2.1

/-- C5 (demonstrating the code bug): in a state whose dense array already holds exactly
`u32::MAX` values, an `insert` that must append a new entry does not fail fast.  The
safety precondition of `NonMaxU32::new_unchecked(self.dense.len() as u32)` is violated
(`insertDefined` is false): the execution is undefined behavior, not a panic/abort, and
in the functional model the reserved sentinel value `u32::MAX` itself is recorded as the
stored dense position. -/
theorem spec_C5_no_fail_fast_at_sentinel :
    ¬ sentinelFullState.insertDefined ⟨0⟩ ∧
      (sentinelFullState.insert ⟨0⟩ ()).sparse[0]? = some (some U32MAX) := by
  have hlen : sentinelFullState.dense.length = U32MAX := List.length_replicate U32MAX ()
  have hmod : sentinelFullState.dense.length % U32SIZE = U32MAX := by
    rw [hlen]
    exact Nat.mod_eq_of_lt (by norm_num [U32MAX, U32SIZE])
  constructor
  · intro hdef
    have hdef' : sentinelFullState.dense.length % U32SIZE ≠ U32MAX := hdef
    exact hdef' hmod
  · have hc : sentinelFullState.contains ⟨0⟩ = false := rfl
    have hslot := sentinelFullState.sparse_insert_getElem?_self ⟨0⟩ () hc
    rw [hmod] at hslot
    exact hslot

/-- C6: the bulk insert fails (assert panic, modelled as `Except.error` carrying the
state at the moment of the panic) exactly when the two slices have different lengths or
`dense.length + entites.length ≥ u32::MAX`; the assert is the first statement of the
function, so the error state is the unchanged input state `s`. -/
theorem spec_C6_bulk_assert_iff (s : EntitySparseSet V) (entites : List Entity)
    (values : List V) :
    s.insert_from_slice_unique entites values = Except.error s ↔
      (entites.length ≠ values.length ∨ U32MAX ≤ s.dense.length + entites.length) :=
  s.slice_error_iff entites values

/-- C7: under the documented preconditions (equal lengths, pairwise-distinct raw
indices, no prior presence, capacity) the bulk insert succeeds and produces exactly the
state obtained by inserting the pairs sequentially in order; in particular `get` and
`contains` agree on every entity between the two. -/
theorem spec_C7_bulk_equivalence (s : EntitySparseSet V) (entites : List Entity)
    (values : List V) (hpre : SliceUniquePre s entites values) :
    s.insert_from_slice_unique entites values =
        Except.ok (insertSeq s (entites.zip values)) ∧
    ∀ t, s.insert_from_slice_unique entites values = Except.ok t →
      ∀ e' : Entity, t.get e' = (insertSeq s (entites.zip values)).get e' ∧
        t.contains e' = (insertSeq s (entites.zip values)).contains e' := by
  have hok := s.slice_ok_of_pre entites values hpre
  refine ⟨hok, ?_⟩
  intro t ht e'
  rw [hok] at ht
  cases ht
  exact ⟨rfl, rfl⟩

theorem spec_C7_bulk_equivalence_witness :
    EntitySparseSet.default.insert_from_slice_unique [⟨1⟩, ⟨0⟩] [(10 : Nat), 20] =
      Except.ok (insertSeq EntitySparseSet.default ([⟨1⟩, ⟨0⟩].zip [(10 : Nat), 20])) :=
  (spec_C7_bulk_equivalence EntitySparseSet.default [⟨1⟩, ⟨0⟩] [(10 : Nat), 20]
    ⟨by decide, by decide, by decide, by decide⟩).1

/-- C8: `clear` unconditionally resets the container to the freshly-constructed state
(both arrays empty); afterwards no entity is contained and `get` returns nothing, and —
since the cleared state equals `default` — every subsequent operation behaves exactly as
on a fresh container. -/
theorem spec_C8_clear_resets (s : EntitySparseSet V) :
    s.clear = EntitySparseSet.default ∧
    (∀ e : Entity, s.clear.contains e = false) ∧
    (∀ e : Entity, s.clear.get e = none) :=
  ⟨rfl, fun _ => rfl, fun _ => rfl⟩

/-- C9: along every call sequence from the empty container, the sparse length always
equals `coverLen` of the indices inserted since the last `clear` (the smallest size
covering them: one more than the largest such index, or zero if none); and no operation
other than `clear` ever decreases the sparse length. -/
theorem spec_C9_sparse_length_minimal (V : Type) :
    (∀ ops : List (Op V),
      (runTrace ops).1.sparse.length = coverLen (runTrace ops).2) ∧
    (∀ (s : EntitySparseSet V) (e : Entity) (v : V),
      s.sparse.length ≤ (s.insert e v).sparse.length) ∧
    (∀ (s : EntitySparseSet V) (es : List Entity) (vs : List V),
      s.sparse.length ≤ (applyOp s (Op.bulk es vs)).sparse.length) := by
  refine ⟨?_, ?_, ?_⟩
  · intro ops
    unfold runTrace
    exact runTrace_aux ops EntitySparseSet.default [] rfl
  · intro s e v
    rw [EntitySparseSet.sparse_length_insert]
    exact Nat.le_max_left _ _
  · intro s es vs
    rcases hres : s.insert_from_slice_unique es vs with t | t
    · simp only [applyOp, hres]
      rw [EntitySparseSet.slice_error_elim s t es vs hres]
    · simp only [applyOp, hres]
      rw [EntitySparseSet.slice_ok_elim s t es vs hres]
      show s.sparse.length ≤
        (es.foldl EntitySparseSet.sliceStep (s.sparse, s.dense.length)).1.length
      rw [EntitySparseSet.slice_fold_length]
      exact le_foldl_max_entity es s.sparse.length

/-- C10: in every state reachable by defined-behavior executions (`insert` steps whose
unchecked operations have their safety preconditions met, `clear`, and bulk inserts
satisfying their documented preconditions), the dense length equals the number of
present sparse slots, and the map from present sparse slots to dense positions is a
bijection onto the dense positions `0 .. dense.length`. -/
theorem spec_C10_cardinality_bijection (s : EntitySparseSet V) (h : ReachableDB s) :
    s.sparse.countP (fun o => o.isSome) = s.dense.length ∧
    (∀ i d, s.Present i d → d < s.dense.length) ∧
    (∀ i j d, s.Present i d → s.Present j d → i = j) ∧
    (∀ d, d < s.dense.length → ∃ i, s.Present i d) := by
  have hw := s.reachableDB_wf h
  exact ⟨hw.card, hw.bounds, hw.inj, hw.surj⟩

theorem spec_C10_cardinality_bijection_witness :
    (EntitySparseSet.default.insert ⟨4⟩ (3 : Nat)).sparse.countP (fun o => o.isSome) =
      (EntitySparseSet.default.insert ⟨4⟩ (3 : Nat)).dense.length :=
  (spec_C10_cardinality_bijection _
    (ReachableDB.insert EntitySparseSet.default ⟨4⟩ 3 ReachableDB.default
      (EntitySparseSet.default.insertDefined_of_not_contains ⟨4⟩ rfl (by decide)))).1
